import Mathlib

/-!
Verification development for the ofxGLEditor text-editing engine
(`src/ofxEditor.h`).  The repository ships only the class declaration;
the member-function bodies live in `ofxEditor.cpp`, which is not part of
the source tree here.  Every operation below is therefore modelled from
the specification's contracts, as noted in each doc comment.

Characters are Lean `Char`s, the buffer is a `List Char`, positions are
`Nat` offsets, and all fallible lookups return `Option`.
-/

set_option maxHeartbeats 1000000

namespace Ofx

/-- Editor settings collaborator (`ofxEditorSettings`): the part the core
reads is the tab width in characters. -/
structure ofxEditorSettings where
  tabWidth : Nat
deriving DecidableEq

/-- Color-scheme collaborator (`ofxEditorColorScheme`): lexical descriptor
supplying string-quote characters and comment lexemes.  Modelled from the
spec: the class itself is not under `src/`; the spec says it supplies
"open/close string-quote characters, line-comment lexeme, block-comment
open/close lexemes".  Lexemes are modelled as single characters. -/
structure ofxEditorColorScheme where
  stringChars : List Char
  lineCommentChar : Option Char
  blockCommentBeginChar : Option Char
  blockCommentEndChar : Option Char
deriving DecidableEq

/-- Syntax parser TextBlock types, from `ofxEditor.h` lines 211-221. -/
inductive TextBlockType where
  | UNKNOWN
  | WORD
  | STRING
  | NUMBER
  | SPACE
  | TAB
  | ENDLINE
  | COMMENT_BEGIN
  | COMMENT_END
deriving DecidableEq

/-- A contextual block of text, from `ofxEditor.h` lines 224-243. -/
structure TextBlock where
  type : TextBlockType
  text : List Char
deriving DecidableEq

/-- Is this block a zero-width tag block (carries no buffer text)? -/
def TextBlock.isTag (b : TextBlock) : Bool :=
  b.type = TextBlockType.COMMENT_BEGIN ∨ b.type = TextBlockType.COMMENT_END

/-- `n` space characters. -/
def spacesN (n : Nat) : List Char := List.replicate n ' '

/-- Modelled from the spec: `processTabs` (`ofxEditor.cpp` body missing;
header says "replace tabs in buffer with spaces").  The spec says embedded
tab characters are "expanded to the configured tab width measured from
the start of their line (not a fixed global width), so tab stops align
per-line": a tab at column `col` becomes `w - col % w` spaces, advancing
to the next multiple of the tab width `w`, and a line terminator resets
the column to 0. -/
def processTabsFrom (w : Nat) : Nat → List Char → List Char
  | _, [] => []
  | col, c :: r =>
    if c = '\n' then c :: processTabsFrom w 0 r
    else if c = '\t' then
      spacesN (w - col % w) ++ processTabsFrom w (col + (w - col % w)) r
    else c :: processTabsFrom w (col + 1) r

/-- Tab expansion of a whole buffer, starting at column 0. -/
def processTabs (w : Nat) (t : List Char) : List Char := processTabsFrom w 0 t

/-- Boolean "not a line terminator" predicate used by the line scans. -/
def notNL (c : Char) : Bool := !(c = '\n')

/-- Modelled from the spec: the current line character position of the
cursor (`getCurrentLinePos` declared in `ofxEditor.h` line 124, body
missing): the number of characters between the nearest line terminator
before `p` (or the buffer start) and `p`. -/
def curLineCol (t : List Char) (p : Nat) : Nat :=
  ((t.take p).reverse.takeWhile notNL).length

/-- Modelled from the spec: `lineStart` (`ofxEditor.h` line 276, body
missing): scan backward from `pos` for the nearest line terminator or the
buffer boundary; returns the offset of the first character of the line
containing `pos`. -/
def lineStart (t : List Char) (p : Nat) : Nat := p - curLineCol t p

/-- Modelled from the spec: `lineEnd` (`ofxEditor.h` line 279, body
missing): scan forward from `pos` for the nearest line terminator or the
buffer boundary; returns "the offset of the terminator itself, not past
it" (the buffer length when the last line has no terminator). -/
def lineEnd (t : List Char) (p : Nat) : Nat :=
  p + ((t.drop p).takeWhile notNL).length

/-- Modelled from the spec: `lineNumberForPos` (`ofxEditor.h` line 291,
body missing): "1-based count of line terminators strictly before `pos`,
plus 1", computed by a backward scan over the prefix. -/
def lineNumberForPos (t : List Char) : Nat → Nat
  | 0 => 1
  | p + 1 => lineNumberForPos t p + (if t[p]? = some '\n' then 1 else 0)

/-- Modelled from the spec: the line-count scan behind `getNumLines`
(`ofxEditor.h` line 106, body missing): "`lineCount`: derived, = (number
of line-terminator characters) + 1", computed by a single scan. -/
def countLines : List Char → Nat
  | [] => 1
  | c :: r => (if c = '\n' then 1 else 0) + countLines r

/-- Modelled from the spec: offset of the first character of 0-based line
`n`, clamping past-the-end line numbers to the last line (used by
`setCurrentLine` / `setCurrentLinePos`, bodies missing). -/
def startOfLine (t : List Char) : Nat → Nat
  | 0 => 0
  | n + 1 =>
    let e := lineEnd t (startOfLine t n)
    if e < t.length then e + 1 else startOfLine t n

theorem takeWhile_all {p : Char → Bool} : ∀ {l : List Char},
    (∀ x ∈ l, p x = true) → l.takeWhile p = l := by
  intro l h
  induction l with
  | nil => rfl
  | cons c r ih =>
    simp only [List.takeWhile_cons, h c (by simp), if_true]
    exact congrArg (c :: ·) (ih fun x hx => h x (by simp [hx]))

theorem takeWhile_append_all {p : Char → Bool} : ∀ {a b : List Char},
    (∀ x ∈ a, p x = true) → (a ++ b).takeWhile p = a ++ b.takeWhile p := by
  intro a b h
  induction a with
  | nil => rfl
  | cons c r ih =>
    simp only [List.cons_append, List.takeWhile_cons, h c (by simp), if_true]
    exact congrArg (c :: ·) (ih fun x hx => h x (by simp [hx]))

theorem takeWhile_cons_false {p : Char → Bool} {c : Char} (l : List Char)
    (h : p c = false) : (c :: l).takeWhile p = [] := by
  simp [List.takeWhile_cons, h]

theorem length_takeWhile_le (p : Char → Bool) (l : List Char) :
    (l.takeWhile p).length ≤ l.length := by
  induction l with
  | nil => simp
  | cons c r ih =>
    by_cases h : p c
    · simpa [List.takeWhile_cons, h] using Nat.succ_le_succ ih
    · simp [List.takeWhile_cons, h]

theorem length_dropWhile_le (p : Char → Bool) (l : List Char) :
    (l.dropWhile p).length ≤ l.length := by
  induction l with
  | nil => simp
  | cons c r ih =>
    by_cases h : p c
    · simp only [List.dropWhile_cons, h, if_true]
      exact Nat.le_succ_of_le ih
    · simp [List.dropWhile_cons, h]

theorem mem_takeWhile {p : Char → Bool} {x : Char} : ∀ {l : List Char},
    x ∈ l.takeWhile p → p x = true := by
  intro l hx
  induction l with
  | nil => simp at hx
  | cons c r ih =>
    by_cases h : p c
    · rcases (by simpa [List.takeWhile_cons, h] using hx : x = c ∨ x ∈ r.takeWhile p) with h1 | h1
      · exact h1 ▸ h
      · exact ih h1
    · simp [List.takeWhile_cons, h] at hx

theorem take_takeWhile {p : Char → Bool} : ∀ (l : List Char) (m : Nat),
    m ≤ (l.takeWhile p).length → l.take m = (l.takeWhile p).take m := by
  intro l
  induction l with
  | nil => intro m _; rfl
  | cons c r ih =>
    intro m hm
    by_cases h : p c
    · cases m with
      | zero => rfl
      | succ m' =>
        simp only [List.takeWhile_cons, h, if_true, List.take_succ_cons] at hm ⊢
        exact congrArg (c :: ·)
          (ih m' (Nat.le_of_succ_le_succ (by simpa using hm)))
    · rw [List.takeWhile_cons, if_neg h] at hm ⊢
      have hm0 : m = 0 := Nat.le_zero.mp (by simpa using hm)
      subst hm0
      rfl

theorem dropWhile_head_false {p : Char → Bool} :
    ∀ {l : List Char} {c : Char} {r : List Char},
    l.dropWhile p = c :: r → p c = false := by
  intro l
  induction l with
  | nil => intro c r h; simp at h
  | cons x xs ih =>
    intro c r h
    by_cases hx : p x
    · exact ih (by simpa [List.dropWhile_cons, hx] using h)
    · rw [List.dropWhile_cons, if_neg (by simpa using hx)] at h
      cases h
      simpa using hx

theorem getElem?_append_length : ∀ (a b : List Char),
    (a ++ b)[a.length]? = b[0]? := by
  intro a b
  induction a with
  | nil => simp
  | cons c r ih => simpa using ih

/-- Does `c` start a word run (letter or underscore)? -/
def isWordStart (c : Char) : Bool := c.isAlpha || c = '_'

/-- May `c` continue a word run? -/
def isWordChar (c : Char) : Bool := c.isAlpha || c.isDigit || c = '_'

/-- May `c` continue a number run (digits, optionally `.` for decimals)? -/
def isNumChar (c : Char) : Bool := c.isDigit || c = '.'

/-- Modelled from the spec: the single left-to-right scan behind
`parseTextBlocks` (`ofxEditor.h` line 311, body missing in the tree).
Classification priority per spec section 4.2: line terminator (`ENDLINE`,
carrying the terminator as text so round-trip holds), run of tabs (`TAB`),
run of other whitespace (`SPACE`), digit-leading run (`NUMBER`),
letter/underscore-leading run (`WORD`), comment-open lexeme (zero-width
`COMMENT_BEGIN` tag, then the region up to the close lexeme; a line
comment closes implicitly at the next `ENDLINE` with a `COMMENT_END` tag
before it, a block comment at its close character), string-quote
character (`STRING` text including both quotes; unterminated regions
close implicitly at buffer end), anything else a single-character
`UNKNOWN` block.  The `fuel` argument bounds recursion by buffer length;
each step consumes at least one character, so `fuel = length` is enough. -/
def parseTextBlocksAux (cs : ofxEditorColorScheme) : Nat → List Char → List TextBlock
  | 0, _ => []
  | _, [] => []
  | fuel + 1, c :: l =>
    if c = '\n' then
      ⟨.ENDLINE, [c]⟩ :: parseTextBlocksAux cs fuel l
    else if c = '\t' then
      ⟨.TAB, c :: l.takeWhile (fun x => x = '\t')⟩ ::
        parseTextBlocksAux cs fuel (l.dropWhile (fun x => x = '\t'))
    else if c = ' ' then
      ⟨.SPACE, c :: l.takeWhile (fun x => x = ' ')⟩ ::
        parseTextBlocksAux cs fuel (l.dropWhile (fun x => x = ' '))
    else if c.isDigit then
      ⟨.NUMBER, c :: l.takeWhile isNumChar⟩ ::
        parseTextBlocksAux cs fuel (l.dropWhile isNumChar)
    else if isWordStart c then
      ⟨.WORD, c :: l.takeWhile isWordChar⟩ ::
        parseTextBlocksAux cs fuel (l.dropWhile isWordChar)
    else if cs.lineCommentChar = some c then
      ⟨.COMMENT_BEGIN, []⟩ :: ⟨.UNKNOWN, c :: l.takeWhile notNL⟩ ::
        (match l.dropWhile notNL with
         | [] => []
         | d :: rest =>
           ⟨.COMMENT_END, []⟩ :: ⟨.ENDLINE, [d]⟩ :: parseTextBlocksAux cs fuel rest)
    else if cs.blockCommentBeginChar = some c then
      (match l.dropWhile (fun x => !(cs.blockCommentEndChar = some x)) with
       | [] =>
         [⟨.COMMENT_BEGIN, []⟩,
          ⟨.UNKNOWN, c :: l.takeWhile (fun x => !(cs.blockCommentEndChar = some x))⟩]
       | d :: rest =>
         ⟨.COMMENT_BEGIN, []⟩ ::
           ⟨.UNKNOWN,
             c :: l.takeWhile (fun x => !(cs.blockCommentEndChar = some x)) ++ [d]⟩ ::
           ⟨.COMMENT_END, []⟩ :: parseTextBlocksAux cs fuel rest)
    else if c ∈ cs.stringChars then
      (match l.dropWhile (fun x => !(x = c)) with
       | [] => [⟨.STRING, c :: l.takeWhile (fun x => !(x = c))⟩]
       | d :: rest =>
         ⟨.STRING, c :: l.takeWhile (fun x => !(x = c)) ++ [d]⟩ ::
           parseTextBlocksAux cs fuel rest)
    else
      ⟨.UNKNOWN, [c]⟩ :: parseTextBlocksAux cs fuel l

/-- Modelled from the spec: `parseTextBlocks` (`ofxEditor.h` line 311):
full re-scan of the buffer into the TextBlock stream. -/
def parseTextBlocks (cs : ofxEditorColorScheme) (t : List Char) : List TextBlock :=
  parseTextBlocksAux cs t.length t

/-- Concatenation of the `text` of all non-tag blocks, in stream order. -/
def concatNonTag : List TextBlock → List Char
  | [] => []
  | b :: r => (if b.isTag then [] else b.text) ++ concatNonTag r

theorem concatNonTag_append (a b : List TextBlock) :
    concatNonTag (a ++ b) = concatNonTag a ++ concatNonTag b := by
  induction a with
  | nil => rfl
  | cons x r ih => simp [concatNonTag, ih, List.append_assoc]

theorem concatNonTag_cons_nonTag (b : TextBlock) (r : List TextBlock)
    (hb : b.isTag = false) :
    concatNonTag (b :: r) = b.text ++ concatNonTag r := by
  simp [concatNonTag, hb]

theorem concatNonTag_cons_tag (b : TextBlock) (r : List TextBlock)
    (hb : b.isTag = true) :
    concatNonTag (b :: r) = concatNonTag r := by
  simp [concatNonTag, hb]

/-- Core losslessness lemma: the scan emits every consumed character into
exactly the non-tag blocks, in order. -/
theorem concatNonTag_parseAux (cs : ofxEditorColorScheme) :
    ∀ (fuel : Nat) (t : List Char), t.length ≤ fuel →
    concatNonTag (parseTextBlocksAux cs fuel t) = t := by
  intro fuel
  induction fuel with
  | zero =>
    intro t ht
    have h0 : t = [] := List.eq_nil_of_length_eq_zero (Nat.le_zero.mp ht)
    subst h0
    rfl
  | succ fuel ih =>
    intro t ht
    cases t with
    | nil => rfl
    | cons c l =>
      have hl : l.length ≤ fuel := Nat.le_of_succ_le_succ (by simpa using ht)
      have hdw : ∀ q : Char → Bool, (l.dropWhile q).length ≤ fuel :=
        fun q => le_trans (length_dropWhile_le q l) hl
      simp only [parseTextBlocksAux]
      split_ifs with h1 h2 h3 h4 h5 h6 h7 h8
      · show c :: concatNonTag (parseTextBlocksAux cs fuel l) = c :: l
        rw [ih l hl]
      · show (c :: l.takeWhile (fun x => x = '\t')) ++
            concatNonTag (parseTextBlocksAux cs fuel (l.dropWhile (fun x => x = '\t'))) =
            c :: l
        rw [ih _ (hdw _), List.cons_append, List.takeWhile_append_dropWhile]
      · show (c :: l.takeWhile (fun x => x = ' ')) ++
            concatNonTag (parseTextBlocksAux cs fuel (l.dropWhile (fun x => x = ' '))) =
            c :: l
        rw [ih _ (hdw _), List.cons_append, List.takeWhile_append_dropWhile]
      · show (c :: l.takeWhile isNumChar) ++
            concatNonTag (parseTextBlocksAux cs fuel (l.dropWhile isNumChar)) = c :: l
        rw [ih _ (hdw _), List.cons_append, List.takeWhile_append_dropWhile]
      · show (c :: l.takeWhile isWordChar) ++
            concatNonTag (parseTextBlocksAux cs fuel (l.dropWhile isWordChar)) = c :: l
        rw [ih _ (hdw _), List.cons_append, List.takeWhile_append_dropWhile]
      · -- line comment
        rcases hsplit : l.dropWhile notNL with _ | ⟨d, rest⟩
        · show (c :: l.takeWhile notNL) ++ ([] : List Char) = c :: l
          have h := List.takeWhile_append_dropWhile (p := notNL) (l := l)
          rw [hsplit, List.append_nil] at h
          rw [List.append_nil, h]
        · have hrest : rest.length ≤ fuel := by
            have h2 := hdw notNL
            rw [hsplit] at h2
            exact le_trans (Nat.le_succ _) h2
          show (c :: l.takeWhile notNL) ++
              (d :: concatNonTag (parseTextBlocksAux cs fuel rest)) = c :: l
          rw [ih _ hrest]
          have h := List.takeWhile_append_dropWhile (p := notNL) (l := l)
          rw [hsplit] at h
          rw [List.cons_append, h]
      · -- block comment
        rcases hsplit : l.dropWhile (fun x => !(cs.blockCommentEndChar = some x))
          with _ | ⟨d, rest⟩
        · show (c :: l.takeWhile (fun x => !(cs.blockCommentEndChar = some x))) ++
              ([] : List Char) = c :: l
          have h := List.takeWhile_append_dropWhile
            (p := fun x => !(cs.blockCommentEndChar = some x)) (l := l)
          rw [hsplit, List.append_nil] at h
          rw [List.append_nil, h]
        · have hrest : rest.length ≤ fuel := by
            have h2 := hdw (fun x => !(cs.blockCommentEndChar = some x))
            rw [hsplit] at h2
            exact le_trans (Nat.le_succ _) h2
          show (c :: (l.takeWhile (fun x => !(cs.blockCommentEndChar = some x)) ++ [d])) ++
              concatNonTag (parseTextBlocksAux cs fuel rest) = c :: l
          rw [ih _ hrest]
          have h := List.takeWhile_append_dropWhile
            (p := fun x => !(cs.blockCommentEndChar = some x)) (l := l)
          rw [hsplit] at h
          rw [List.cons_append, List.append_assoc, List.singleton_append, h]
      · -- string
        rcases hsplit : l.dropWhile (fun x => !(x = c)) with _ | ⟨d, rest⟩
        · show (c :: l.takeWhile (fun x => !(x = c))) ++ ([] : List Char) = c :: l
          have h := List.takeWhile_append_dropWhile (p := fun x => !(x = c)) (l := l)
          rw [hsplit, List.append_nil] at h
          rw [List.append_nil, h]
        · have hrest : rest.length ≤ fuel := by
            have h2 := hdw (fun x => !(x = c))
            rw [hsplit] at h2
            exact le_trans (Nat.le_succ _) h2
          show (c :: (l.takeWhile (fun x => !(x = c)) ++ [d])) ++
              concatNonTag (parseTextBlocksAux cs fuel rest) = c :: l
          rw [ih _ hrest]
          have h := List.takeWhile_append_dropWhile (p := fun x => !(x = c)) (l := l)
          rw [hsplit] at h
          rw [List.cons_append, List.append_assoc, List.singleton_append, h]
      · show c :: concatNonTag (parseTextBlocksAux cs fuel l) = c :: l
        rw [ih l hl]

/-- Losslessness at the `parseTextBlocks` entry point. -/
theorem concatNonTag_parseTextBlocks (cs : ofxEditorColorScheme) (t : List Char) :
    concatNonTag (parseTextBlocks cs t) = t :=
  concatNonTag_parseAux cs t.length t le_rfl

/-- Every tag block the scan emits carries no text. -/
theorem tags_empty_parseAux (cs : ofxEditorColorScheme) :
    ∀ (fuel : Nat) (t : List Char), ∀ b ∈ parseTextBlocksAux cs fuel t,
    b.isTag = true → b.text = [] := by
  intro fuel
  induction fuel with
  | zero =>
    intro t b hb _
    cases t <;> exact absurd hb (List.not_mem_nil b)
  | succ fuel ih =>
    intro t b hb htag
    cases t with
    | nil => exact absurd hb (List.not_mem_nil b)
    | cons c l =>
      simp only [parseTextBlocksAux] at hb
      split_ifs at hb with h1 h2 h3 h4 h5 h6 h7 h8
      · rcases List.mem_cons.mp hb with rfl | hb
        · cases htag
        · exact ih l b hb htag
      · rcases List.mem_cons.mp hb with rfl | hb
        · cases htag
        · exact ih _ b hb htag
      · rcases List.mem_cons.mp hb with rfl | hb
        · cases htag
        · exact ih _ b hb htag
      · rcases List.mem_cons.mp hb with rfl | hb
        · cases htag
        · exact ih _ b hb htag
      · rcases List.mem_cons.mp hb with rfl | hb
        · cases htag
        · exact ih _ b hb htag
      · rcases hsplit : l.dropWhile notNL with _ | ⟨d, rest⟩ <;> rw [hsplit] at hb
        · rcases List.mem_cons.mp hb with rfl | hb
          · rfl
          · rcases List.mem_cons.mp hb with rfl | hb
            · cases htag
            · exact absurd hb (List.not_mem_nil b)
        · rcases List.mem_cons.mp hb with rfl | hb
          · rfl
          · rcases List.mem_cons.mp hb with rfl | hb
            · cases htag
            · rcases List.mem_cons.mp hb with rfl | hb
              · rfl
              · rcases List.mem_cons.mp hb with rfl | hb
                · cases htag
                · exact ih _ b hb htag
      · rcases hsplit : l.dropWhile (fun x => !(cs.blockCommentEndChar = some x))
          with _ | ⟨d, rest⟩ <;> rw [hsplit] at hb
        · rcases List.mem_cons.mp hb with rfl | hb
          · rfl
          · rcases List.mem_cons.mp hb with rfl | hb
            · cases htag
            · exact absurd hb (List.not_mem_nil b)
        · rcases List.mem_cons.mp hb with rfl | hb
          · rfl
          · rcases List.mem_cons.mp hb with rfl | hb
            · cases htag
            · rcases List.mem_cons.mp hb with rfl | hb
              · rfl
              · exact ih _ b hb htag
      · rcases hsplit : l.dropWhile (fun x => !(x = c)) with _ | ⟨d, rest⟩ <;>
          rw [hsplit] at hb
        · rcases List.mem_cons.mp hb with rfl | hb
          · cases htag
          · exact absurd hb (List.not_mem_nil b)
        · rcases List.mem_cons.mp hb with rfl | hb
          · cases htag
          · exact ih _ b hb htag
      · rcases List.mem_cons.mp hb with rfl | hb
        · cases htag
        · exact ih l b hb htag

/-- Modelled from the spec: flattening of the token stream into
per-character entries for the bracket matcher.  Each character of a
non-tag block carries a "matchable" flag, true exactly when the block
type is `UNKNOWN` and the character does not lie between a
`COMMENT_BEGIN` and a `COMMENT_END` tag: the spec says scanning "skips
characters that lie inside STRING, COMMENT_BEGIN..COMMENT_END regions"
and that the matcher "must consult block type, not raw characters". -/
def blockChars : List TextBlock → Bool → List (Char × Bool)
  | [], _ => []
  | b :: r, inComment =>
    match b.type with
    | .COMMENT_BEGIN => blockChars r true
    | .COMMENT_END => blockChars r false
    | ty =>
      b.text.map (fun ch => (ch, decide (ty = .UNKNOWN) && !inComment)) ++
        blockChars r inComment

/-- The close delimiter matching a recognized open delimiter.  The spec
leaves the exact pair table open and suggests `(`/`)`, `{`/`}`, `[`/`]`. -/
def matchingCloseChar (c : Char) : Option Char :=
  if c = '(' then some ')'
  else if c = '[' then some ']'
  else if c = '{' then some '}'
  else none

/-- The open delimiter matching a recognized close delimiter. -/
def matchingOpenChar (c : Char) : Option Char :=
  if c = ')' then some '('
  else if c = ']' then some '['
  else if c = '}' then some '{'
  else none

/-- Modelled from the spec: `parseOpenChars` (`ofxEditor.h` line 285, body
missing): "look forward for a close char".  The list is the annotated
suffix after the open delimiter, `i` the absolute buffer offset of its
head, `d` the nesting depth so far; depth increments on each occurrence
of the same open delimiter `o`, decrements on the matching close `c`,
and the match is the close where depth first returns to zero.
Non-matchable entries (inside strings or comment regions) are skipped. -/
def parseOpenChars (o c : Char) : List (Char × Bool) → Nat → Nat → Option Nat
  | [], _, _ => none
  | (ch, m) :: rest, i, d =>
    if m && (ch = c) then
      (if d = 1 then some i else parseOpenChars o c rest (i + 1) (d - 1))
    else if m && (ch = o) then parseOpenChars o c rest (i + 1) (d + 1)
    else parseOpenChars o c rest (i + 1) d

/-- Modelled from the spec: `parseCloseChars` (`ofxEditor.h` line 288,
body missing): "look backward for an open char", the symmetric backward
scan.  The list is the reversed annotated prefix before the close
delimiter `c`; the result is the offset into that reversed prefix. -/
def parseCloseChars (c o : Char) : List (Char × Bool) → Nat → Nat → Option Nat
  | [], _, _ => none
  | (ch, m) :: rest, k, d =>
    if m && (ch = o) then
      (if d = 1 then some k else parseCloseChars c o rest (k + 1) (d - 1))
    else if m && (ch = c) then parseCloseChars c o rest (k + 1) (d + 1)
    else parseCloseChars c o rest (k + 1) d

/-- Is the annotated entry a matchable (open or close) delimiter? -/
def isDelimEntry (x : Char × Bool) : Bool :=
  x.2 && ((matchingCloseChar x.1).isSome || (matchingOpenChar x.1).isSome)

/-- Dispatch on the delimiter found at annotated index `i`: forward scan
for an open delimiter, backward scan for a close delimiter. -/
def matchAt (ann : List (Char × Bool)) (i : Nat) : Option (Nat × Nat) :=
  match ann[i]? with
  | some (ch, m) =>
    if m then
      match matchingCloseChar ch with
      | some cl =>
        (parseOpenChars ch cl (ann.drop (i + 1)) (i + 1) 1).map (fun j => (i, j))
      | none =>
        match matchingOpenChar ch with
        | some op =>
          (parseCloseChars ch op ((ann.take i).reverse) 0 1).map
            (fun k => (i - 1 - k, i))
        | none => none
    else none
  | none => none

/-- Fallback lookup at the character immediately before the cursor. -/
def matchBefore (ann : List (Char × Bool)) (p : Nat) : Option (Nat × Nat) :=
  if p = 0 then none
  else
    match ann[p - 1]? with
    | some y => if isDelimEntry y then matchAt ann (p - 1) else none
    | none => none

/-- Modelled from the spec: `parseMatchingChars`/`findMatch`
(`ofxEditor.h` line 282, body missing): "looks at the character
immediately at or before the cursor"; when neither is a recognized
matchable delimiter the result is the "none" sentinel. -/
def parseMatchingChars (bs : List TextBlock) (p : Nat) : Option (Nat × Nat) :=
  let ann := blockChars bs false
  match ann[p]? with
  | some x => if isDelimEntry x then matchAt ann p else matchBefore ann p
  | none => matchBefore ann p

/-- The `ofxEditor` engine state: the member variables the core reads and
writes (`ofxEditor.h` lines 171-188): settings, optional color scheme,
text buffer, 1D cursor position, desired char pos on the current line
(sticky column), selection flag and highlight start/end. -/
structure ofxEditor where
  m_settings : ofxEditorSettings
  m_colorScheme : Option ofxEditorColorScheme
  m_text : List Char
  m_position : Nat
  m_desiredXPos : Nat
  m_selection : Bool
  m_highlightStart : Nat
  m_highlightEnd : Nat
deriving DecidableEq

/-- The lexical descriptor in effect: absent a color scheme no
string/comment classification is produced (spec section 4.2). -/
def schemeOf (e : ofxEditor) : ofxEditorColorScheme :=
  e.m_colorScheme.getD ⟨[], none, none, none⟩

/-- Re-tokenization of the editor's current buffer (`textBufferUpdated` /
`parseTextBlocks`, `ofxEditor.h` lines 308-311). -/
def editorTextBlocks (e : ofxEditor) : List TextBlock :=
  parseTextBlocks (schemeOf e) e.m_text

/-- `getNumLines` (`ofxEditor.h` line 106): total number of lines in the
text buffer. -/
def getNumLines (e : ofxEditor) : Nat := countLines e.m_text

/-- Character-walking extraction of the buffer slice `[s, e)`, used by
`getText` when a selection is active. -/
def substrAux : Nat → Nat → List Char → List Char
  | _, _, [] => []
  | 0, 0, _ => []
  | 0, e + 1, c :: r => c :: substrAux 0 e r
  | _ + 1, 0, _ => []
  | s + 1, e + 1, _ :: r => substrAux s e r

/-- Modelled from the spec: `getText` (`ofxEditor.h` lines 50-51, body
missing): "get text buffer contents or current selection" — the selected
slice `[highlightStart, highlightEnd)` when a selection is active, the
whole buffer otherwise. -/
def getText (e : ofxEditor) : List Char :=
  if e.m_selection then substrAux e.m_highlightStart e.m_highlightEnd e.m_text
  else e.m_text

/-- Modelled from the spec: `setText` (`ofxEditor.h` line 54, body
missing): "replaces content wholly; resets cursor, selection, and scroll
state to the start"; tabs are expanded on entry so the buffer invariant
"tabs already expanded" holds. -/
def setText (e : ofxEditor) (s : List Char) : ofxEditor :=
  { e with
    m_text := processTabs e.m_settings.tabWidth s
    m_position := 0
    m_desiredXPos := 0
    m_selection := false
    m_highlightStart := 0
    m_highlightEnd := 0 }

/-- Modelled from the spec: `clearText` (`ofxEditor.h` line 60, body
missing): clears the buffer and resets position and selection. -/
def clearText (e : ofxEditor) : ofxEditor := setText e []

/-- Modelled from the spec: `insertText` (`ofxEditor.h` line 57, body
missing): splices the string into the buffer at the (clamped) current
position, expanding embedded tabs to the configured tab width measured
from the start of their line; advances the cursor to the end of the
inserted text and collapses any active selection. -/
def insertText (e : ofxEditor) (s : List Char) : ofxEditor :=
  let p := min e.m_position e.m_text.length
  let ins := processTabsFrom e.m_settings.tabWidth (curLineCol e.m_text p) s
  { e with
    m_text := e.m_text.take p ++ ins ++ e.m_text.drop p
    m_position := p + ins.length
    m_desiredXPos := curLineCol (e.m_text.take p ++ ins ++ e.m_text.drop p) (p + ins.length)
    m_selection := false
    m_highlightStart := p + ins.length
    m_highlightEnd := p + ins.length }

/-- Modelled from the spec: `deleteRange(start, end)`: clamps both
positions to `[0, length]`; when the clamped range is non-empty and not
inverted (`start < end`) it removes `[start, end)`, moves the cursor to
the start of the removed range and collapses the selection; an empty or
inverted range is a no-op, not an error (spec section 7). -/
def deleteRange (e : ofxEditor) (a b : Nat) : ofxEditor :=
  if min a e.m_text.length < min b e.m_text.length then
    { e with
      m_text := e.m_text.take (min a e.m_text.length) ++
        e.m_text.drop (min b e.m_text.length)
      m_position := min a e.m_text.length
      m_desiredXPos := curLineCol
        (e.m_text.take (min a e.m_text.length) ++
          e.m_text.drop (min b e.m_text.length))
        (min a e.m_text.length)
      m_selection := false
      m_highlightStart := min a e.m_text.length
      m_highlightEnd := min a e.m_text.length }
  else e

/-- Modelled from the spec: `setCurrentPos` (`ofxEditor.h` line 115, body
missing): clamps the 1D position into `[0, length]` and recomputes the
desired column. -/
def setCurrentPos (e : ofxEditor) (p : Nat) : ofxEditor :=
  let p' := min p e.m_text.length
  { e with
    m_position := p'
    m_desiredXPos := curLineCol e.m_text p' }

/-- Modelled from the spec: `setCurrentLine` (`ofxEditor.h` line 121,
body missing): moves the cursor to the start of the given 0-based line,
clamping past-the-end line numbers to the last line. -/
def setCurrentLine (e : ofxEditor) (line : Nat) : ofxEditor :=
  { e with
    m_position := startOfLine e.m_text line
    m_desiredXPos := 0 }

/-- Modelled from the spec: `setCurrentLinePos` (`ofxEditor.h` line 130,
body missing): cursor position by line and line character; the character
offset "is clamped to the target line's length; recomputes
desiredColumn". -/
def setCurrentLinePos (e : ofxEditor) (line ch : Nat) : ofxEditor :=
  let ls := startOfLine e.m_text line
  let c' := min ch (lineEnd e.m_text ls - ls)
  { e with
    m_position := ls + c'
    m_desiredXPos := c' }

/-- Modelled from the spec: `reset` (`ofxEditor.h` line 133, body
missing): "reset position & selection". -/
def reset (e : ofxEditor) : ofxEditor :=
  { e with
    m_position := 0
    m_desiredXPos := 0
    m_selection := false
    m_highlightStart := 0
    m_highlightEnd := 0 }

/-- The selection anchor: the bound of the active selection the cursor is
not at (the position where extension began), or the cursor itself when no
selection is active. -/
def selAnchor (e : ofxEditor) : Nat :=
  if e.m_selection then
    (if e.m_position = e.m_highlightEnd then e.m_highlightStart else e.m_highlightEnd)
  else e.m_position

/-- Shared epilogue of the cursor moves: place the cursor at `p'`; when
extending, the selection end tracks the new position while the anchor
stays, and the stored bounds are reordered so start ≤ end; otherwise any
active selection collapses. -/
def applyMove (e : ofxEditor) (p' : Nat) (ext : Bool) (desired : Nat) : ofxEditor :=
  if ext then
    { e with
      m_position := p'
      m_desiredXPos := desired
      m_selection := true
      m_highlightStart := min (selAnchor e) p'
      m_highlightEnd := max (selAnchor e) p' }
  else
    { e with
      m_position := p'
      m_desiredXPos := desired
      m_selection := false
      m_highlightStart := p'
      m_highlightEnd := p' }

/-- Modelled from the spec: left arrow of `keyPressed` (`ofxEditor.h`
line 43, body missing): horizontal motion clamps to `[0, length]` and
updates the desired column to the new column. -/
def moveLeft (e : ofxEditor) (ext : Bool) : ofxEditor :=
  let p' := e.m_position - 1
  applyMove e p' ext (curLineCol e.m_text p')

/-- Modelled from the spec: right arrow of `keyPressed`: horizontal
motion clamps to `[0, length]` and updates the desired column. -/
def moveRight (e : ofxEditor) (ext : Bool) : ofxEditor :=
  let p' := min (e.m_position + 1) e.m_text.length
  applyMove e p' ext (curLineCol e.m_text p')

/-- Modelled from the spec: down arrow of `keyPressed`: vertical motion
keeps the desired column fixed and lands on the next line at the column
`min desiredColumn (next line length)`; on the last line the cursor does
not move. -/
def moveDown (e : ofxEditor) (ext : Bool) : ofxEditor :=
  let en := lineEnd e.m_text e.m_position
  if en < e.m_text.length then
    let ts := en + 1
    applyMove e (ts + min e.m_desiredXPos (lineEnd e.m_text ts - ts)) ext e.m_desiredXPos
  else
    applyMove e e.m_position ext e.m_desiredXPos

/-- Modelled from the spec: up arrow of `keyPressed`: vertical motion
keeps the desired column fixed and lands on the previous line at the
column `min desiredColumn (previous line length)`; on the first line the
cursor does not move. -/
def moveUp (e : ofxEditor) (ext : Bool) : ofxEditor :=
  let ls := lineStart e.m_text e.m_position
  if ls = 0 then
    applyMove e e.m_position ext e.m_desiredXPos
  else
    let pls := lineStart e.m_text (ls - 1)
    applyMove e (pls + min e.m_desiredXPos ((ls - 1) - pls)) ext e.m_desiredXPos

/-- The operations of the engine: buffer edits, direct jumps, navigation
(with or without selection extension) and reset. -/
inductive EditorOp where
  | opSetText (s : List Char)
  | opClearText
  | opInsertText (s : List Char)
  | opDeleteRange (a b : Nat)
  | opSetCurrentPos (p : Nat)
  | opSetCurrentLine (line : Nat)
  | opSetCurrentLinePos (line ch : Nat)
  | opMoveLeft (ext : Bool)
  | opMoveRight (ext : Bool)
  | opMoveUp (ext : Bool)
  | opMoveDown (ext : Bool)
  | opReset

/-- Apply one operation to the editor state. -/
def applyOp : EditorOp → ofxEditor → ofxEditor
  | .opSetText s, e => setText e s
  | .opClearText, e => clearText e
  | .opInsertText s, e => insertText e s
  | .opDeleteRange a b, e => deleteRange e a b
  | .opSetCurrentPos p, e => setCurrentPos e p
  | .opSetCurrentLine l, e => setCurrentLine e l
  | .opSetCurrentLinePos l c, e => setCurrentLinePos e l c
  | .opMoveLeft x, e => moveLeft e x
  | .opMoveRight x, e => moveRight e x
  | .opMoveUp x, e => moveUp e x
  | .opMoveDown x, e => moveDown e x
  | .opReset, e => reset e

/-- The state invariant of spec section 4.4: the cursor position lies in
`[0, length]` and, when a selection is active, its bounds are ordered and
within the buffer. -/
def EditorInv (e : ofxEditor) : Prop :=
  e.m_position ≤ e.m_text.length ∧
    (e.m_selection = true →
      e.m_highlightStart ≤ e.m_highlightEnd ∧ e.m_highlightEnd ≤ e.m_text.length)

instance (e : ofxEditor) : Decidable (EditorInv e) := by
  unfold EditorInv
  infer_instance

theorem curLineCol_le (t : List Char) (p : Nat) : curLineCol t p ≤ p := by
  have h := length_takeWhile_le notNL (t.take p).reverse
  rw [List.length_reverse, List.length_take] at h
  exact le_trans h (min_le_left _ _)

theorem lineStart_le (t : List Char) (p : Nat) : lineStart t p ≤ p :=
  Nat.sub_le _ _

theorem le_lineEnd (t : List Char) (p : Nat) : p ≤ lineEnd t p :=
  Nat.le_add_right _ _

theorem lineEnd_le_length (t : List Char) (p : Nat) (hp : p ≤ t.length) :
    lineEnd t p ≤ t.length := by
  have h := length_takeWhile_le notNL (t.drop p)
  rw [List.length_drop] at h
  unfold lineEnd
  omega

theorem startOfLine_le_length (t : List Char) : ∀ n, startOfLine t n ≤ t.length := by
  intro n
  induction n with
  | zero => exact Nat.zero_le _
  | succ n ih =>
    unfold startOfLine
    by_cases h : lineEnd t (startOfLine t n) < t.length
    · simp only [h, if_true]
      omega
    · simpa [h] using ih

theorem selAnchor_le (e : ofxEditor) (he : EditorInv e) :
    selAnchor e ≤ e.m_text.length := by
  unfold selAnchor
  by_cases hs : e.m_selection = true
  · rcases he.2 hs with ⟨h1, h2⟩
    simp only [hs, if_true]
    by_cases hp : e.m_position = e.m_highlightEnd <;> simp [hp] <;> omega
  · simp only [Bool.not_eq_true] at hs
    simp only [hs]
    simpa using he.1

theorem applyMove_inv (e : ofxEditor) (p' : Nat) (ext : Bool) (d : Nat)
    (hp : p' ≤ e.m_text.length) (ha : selAnchor e ≤ e.m_text.length) :
    EditorInv (applyMove e p' ext d) := by
  unfold applyMove EditorInv
  cases ext with
  | false =>
    refine ⟨by simpa using hp, ?_⟩
    intro h
    simp at h
  | true =>
    refine ⟨by simpa using hp, ?_⟩
    intro _
    constructor
    · simp only [applyMove]
      exact le_trans (min_le_left _ _) (le_max_left _ _)
    · simp only [applyMove]
      exact max_le ha hp

/-- Shared preservation lemma: every engine operation keeps the state
invariant. -/
theorem editorInv_applyOp (op : EditorOp) (e : ofxEditor) (he : EditorInv e) :
    EditorInv (applyOp op e) := by
  cases op with
  | opSetText s =>
    refine ⟨Nat.zero_le _, ?_⟩
    intro h
    simp [applyOp, setText] at h
  | opClearText =>
    refine ⟨Nat.zero_le _, ?_⟩
    intro h
    simp [applyOp, clearText, setText] at h
  | opInsertText s =>
    constructor
    · simp only [applyOp, insertText, List.length_append, List.length_take,
        List.length_drop]
      have : min e.m_position e.m_text.length ≤ e.m_text.length := min_le_right _ _
      omega
    · intro h
      simp [applyOp, insertText] at h
  | opDeleteRange a b =>
    simp only [applyOp, deleteRange]
    by_cases hr : min a e.m_text.length < min b e.m_text.length
    · rw [if_pos hr]
      constructor
      · simp only [List.length_append, List.length_take, List.length_drop]
        have h1 : min a e.m_text.length ≤ e.m_text.length := min_le_right _ _
        have h2 : min b e.m_text.length ≤ e.m_text.length := min_le_right _ _
        omega
      · intro h
        simp at h
    · rw [if_neg hr]
      exact he
  | opSetCurrentPos p =>
    constructor
    · simp only [applyOp, setCurrentPos]
      exact min_le_right _ _
    · intro h
      simp only [applyOp, setCurrentPos] at h ⊢
      exact he.2 h
  | opSetCurrentLine line =>
    constructor
    · simp only [applyOp, setCurrentLine]
      exact startOfLine_le_length e.m_text line
    · intro h
      simp only [applyOp, setCurrentLine] at h ⊢
      exact he.2 h
  | opSetCurrentLinePos line ch =>
    constructor
    · simp only [applyOp, setCurrentLinePos]
      have h1 := startOfLine_le_length e.m_text line
      have h2 := lineEnd_le_length e.m_text (startOfLine e.m_text line) h1
      have h3 := le_lineEnd e.m_text (startOfLine e.m_text line)
      have h4 : min ch (lineEnd e.m_text (startOfLine e.m_text line) -
          startOfLine e.m_text line) ≤
          lineEnd e.m_text (startOfLine e.m_text line) -
          startOfLine e.m_text line := min_le_right _ _
      omega
    · intro h
      simp only [applyOp, setCurrentLinePos] at h ⊢
      exact he.2 h
  | opMoveLeft x =>
    exact applyMove_inv e _ x _ (le_trans (Nat.sub_le _ _) he.1) (selAnchor_le e he)
  | opMoveRight x =>
    exact applyMove_inv e _ x _ (min_le_right _ _) (selAnchor_le e he)
  | opMoveUp x =>
    simp only [applyOp, moveUp]
    by_cases h0 : lineStart e.m_text e.m_position = 0
    · simp only [h0, if_true]
      exact applyMove_inv e _ x _ he.1 (selAnchor_le e he)
    · simp only [h0, if_false]
      refine applyMove_inv e _ x _ ?_ (selAnchor_le e he)
      have h1 := lineStart_le e.m_text (lineStart e.m_text e.m_position - 1)
      have h2 := lineStart_le e.m_text e.m_position
      have h3 : min e.m_desiredXPos
          ((lineStart e.m_text e.m_position - 1) -
            lineStart e.m_text (lineStart e.m_text e.m_position - 1)) ≤
          (lineStart e.m_text e.m_position - 1) -
            lineStart e.m_text (lineStart e.m_text e.m_position - 1) :=
        min_le_right _ _
      have h4 := he.1
      omega
  | opMoveDown x =>
    simp only [applyOp, moveDown]
    by_cases h0 : lineEnd e.m_text e.m_position < e.m_text.length
    · simp only [h0, if_true]
      refine applyMove_inv e _ x _ ?_ (selAnchor_le e he)
      have h1 : lineEnd e.m_text e.m_position + 1 ≤ e.m_text.length := h0
      have h2 := lineEnd_le_length e.m_text (lineEnd e.m_text e.m_position + 1) h1
      have h3 := le_lineEnd e.m_text (lineEnd e.m_text e.m_position + 1)
      have h4 : min e.m_desiredXPos
          (lineEnd e.m_text (lineEnd e.m_text e.m_position + 1) -
            (lineEnd e.m_text e.m_position + 1)) ≤
          lineEnd e.m_text (lineEnd e.m_text e.m_position + 1) -
            (lineEnd e.m_text e.m_position + 1) := min_le_right _ _
      omega
    · simp only [h0, if_false]
      exact applyMove_inv e _ x _ he.1 (selAnchor_le e he)
  | opReset =>
    refine ⟨Nat.zero_le _, ?_⟩
    intro h
    simp [applyOp, reset] at h

theorem curLineCol_add (t : List Char) (q m : Nat)
    (hm : m ≤ ((t.drop q).takeWhile notNL).length) :
    curLineCol t (q + m) = curLineCol t q + m := by
  unfold curLineCol
  rw [List.take_add]
  have hmid : (t.drop q).take m = ((t.drop q).takeWhile notNL).take m :=
    take_takeWhile (t.drop q) m hm
  have hall : ∀ x ∈ (t.drop q).take m, notNL x = true := by
    intro x hx
    rw [hmid] at hx
    exact mem_takeWhile (List.mem_of_mem_take hx)
  have hallrev : ∀ x ∈ ((t.drop q).take m).reverse, notNL x = true := by
    intro x hx
    exact hall x (List.mem_reverse.mp hx)
  rw [List.reverse_append, takeWhile_append_all hallrev, List.length_append,
    List.length_reverse, List.length_take]
  have hlen : m ≤ (t.drop q).length :=
    le_trans hm (length_takeWhile_le _ _)
  rw [min_eq_left hlen]
  omega

theorem curLineCol_after_nl (t : List Char) (q : Nat)
    (hq : t[q]? = some '\n') : curLineCol t (q + 1) = 0 := by
  unfold curLineCol
  rw [List.take_succ, hq]
  show (((t.take q ++ ['\n']).reverse).takeWhile notNL).length = 0
  rw [List.reverse_append]
  show ((('\n' :: []) ++ (t.take q).reverse).takeWhile notNL).length = 0
  rw [List.cons_append, takeWhile_cons_false _ rfl]
  rfl

theorem curLineCol_lineEnd (t : List Char) (p : Nat) :
    curLineCol t (lineEnd t p) = curLineCol t p + (lineEnd t p - p) := by
  unfold lineEnd
  rw [curLineCol_add t p _ le_rfl]
  omega

theorem getElem_takeWhile_length {q : Char → Bool} :
    ∀ (l : List Char) (d : Char) (r : List Char), l.dropWhile q = d :: r →
    l[(l.takeWhile q).length]? = some d := by
  intro l
  induction l with
  | nil => intro d r h; simp at h
  | cons x xs ih =>
    intro d r h
    by_cases hx : q x
    · rw [List.dropWhile_cons, if_pos (by simpa using hx)] at h
      rw [List.takeWhile_cons, if_pos (by simpa using hx)]
      simpa using ih d r h
    · rw [List.dropWhile_cons, if_neg (by simpa using hx)] at h
      rw [List.takeWhile_cons, if_neg (by simpa using hx)]
      cases h
      simp

theorem getElem_lineEnd (t : List Char) (p : Nat) (hp : p ≤ t.length)
    (h : lineEnd t p < t.length) : t[lineEnd t p]? = some '\n' := by
  rcases hdw : (t.drop p).dropWhile notNL with _ | ⟨d, r⟩
  · exfalso
    have hsplit := List.takeWhile_append_dropWhile (p := notNL) (l := t.drop p)
    rw [hdw, List.append_nil] at hsplit
    have : ((t.drop p).takeWhile notNL).length = t.length - p := by
      rw [hsplit, List.length_drop]
    unfold lineEnd at h
    omega
  · have hd : notNL d = false := dropWhile_head_false hdw
    have hdnl : d = '\n' := by
      by_contra hne
      simp [notNL, hne] at hd
    unfold lineEnd
    rw [← List.getElem?_drop, getElem_takeWhile_length (t.drop p) d r hdw, hdnl]

/-- After `moveDown` onto the next line, the cursor column is exactly
`min desired (next line length)`. -/
theorem curLineCol_moveDown_target (t : List Char) (p m : Nat)
    (hp : p ≤ t.length) (hnl : lineEnd t p < t.length)
    (hm : m ≤ ((t.drop (lineEnd t p + 1)).takeWhile notNL).length) :
    curLineCol t (lineEnd t p + 1 + m) = m := by
  rw [curLineCol_add t (lineEnd t p + 1) m hm,
    curLineCol_after_nl t (lineEnd t p) (getElem_lineEnd t p hp hnl)]
  omega

theorem applyMove_text (e : ofxEditor) (p' : Nat) (x : Bool) (d : Nat) :
    (applyMove e p' x d).m_text = e.m_text := by
  unfold applyMove
  cases x <;> rfl

theorem applyMove_position (e : ofxEditor) (p' : Nat) (x : Bool) (d : Nat) :
    (applyMove e p' x d).m_position = p' := by
  unfold applyMove
  cases x <;> rfl

theorem applyMove_desired (e : ofxEditor) (p' : Nat) (x : Bool) (d : Nat) :
    (applyMove e p' x d).m_desiredXPos = d := by
  unfold applyMove
  cases x <;> rfl

/-- Vertical motion never changes the stored desired column. -/
theorem moveDown_desired (e : ofxEditor) (x : Bool) :
    (moveDown e x).m_desiredXPos = e.m_desiredXPos := by
  simp only [moveDown]
  split_ifs <;> rw [applyMove_desired]

/-- Vertical motion never changes the stored desired column. -/
theorem moveUp_desired (e : ofxEditor) (x : Bool) :
    (moveUp e x).m_desiredXPos = e.m_desiredXPos := by
  simp only [moveUp]
  split_ifs <;> rw [applyMove_desired]

theorem moveDown_text (e : ofxEditor) (x : Bool) :
    (moveDown e x).m_text = e.m_text := by
  simp only [moveDown]
  split_ifs <;> rw [applyMove_text]

theorem moveUp_text (e : ofxEditor) (x : Bool) :
    (moveUp e x).m_text = e.m_text := by
  simp only [moveUp]
  split_ifs <;> rw [applyMove_text]

/-- `moveDown` on a non-last line lands at the start of the next line
plus `min desired (next line length)`. -/
theorem moveDown_position (e : ofxEditor) (x : Bool)
    (hnl : lineEnd e.m_text e.m_position < e.m_text.length) :
    (moveDown e x).m_position =
      lineEnd e.m_text e.m_position + 1 +
        min e.m_desiredXPos
          (lineEnd e.m_text (lineEnd e.m_text e.m_position + 1) -
            (lineEnd e.m_text e.m_position + 1)) := by
  unfold moveDown
  rw [if_pos hnl, applyMove_position]

/-- `moveUp` when not on the first line lands at the start of the
previous line plus `min desired (previous line length)`. -/
theorem moveUp_position (e : ofxEditor) (x : Bool)
    (h0 : lineStart e.m_text e.m_position ≠ 0) :
    (moveUp e x).m_position =
      lineStart e.m_text (lineStart e.m_text e.m_position - 1) +
        min e.m_desiredXPos
          ((lineStart e.m_text e.m_position - 1) -
            lineStart e.m_text (lineStart e.m_text e.m_position - 1)) := by
  unfold moveUp
  rw [if_neg h0, applyMove_position]

/-- The target line length in `moveDown` is the length of the run of
non-terminator characters after the terminator. -/
theorem lineEnd_sub_self (t : List Char) (q : Nat) :
    lineEnd t q - q = ((t.drop q).takeWhile notNL).length := by
  unfold lineEnd
  omega

/-- Sticky-column round trip: moving down onto the next line and back up
restores the cursor when the desired column equals the current column. -/
theorem moveUp_moveDown_roundTrip (e : ofxEditor) (x y : Bool)
    (hp : e.m_position ≤ e.m_text.length)
    (hd : e.m_desiredXPos = curLineCol e.m_text e.m_position)
    (hnl : lineEnd e.m_text e.m_position < e.m_text.length) :
    (moveUp (moveDown e x) y).m_position = e.m_position := by
  have htext := moveDown_text e x
  have hdes := moveDown_desired e x
  have hposd := moveDown_position e x hnl
  set t := e.m_text with ht
  set p := e.m_position with hpdef
  set d := e.m_desiredXPos with hddef
  set en := lineEnd t p with hen
  set m := min d (lineEnd t (en + 1) - (en + 1)) with hm
  have hmle : m ≤ ((t.drop (en + 1)).takeWhile notNL).length := by
    rw [hm]
    exact le_trans (min_le_right _ _) (le_of_eq (lineEnd_sub_self t (en + 1)))
  have hcol : curLineCol t (en + 1 + m) = m :=
    curLineCol_moveDown_target t p m hp hnl hmle
  have hls : lineStart t (en + 1 + m) = en + 1 := by
    unfold lineStart
    rw [hcol]
    omega
  have hne0 : lineStart (moveDown e x).m_text (moveDown e x).m_position ≠ 0 := by
    rw [htext, hposd, hls]
    omega
  rw [moveUp_position (moveDown e x) y hne0, htext, hdes, hposd, hls]
  have hsub : en + 1 - 1 = en := by omega
  rw [hsub]
  have hc0 : curLineCol t p ≤ p := curLineCol_le t p
  have hpen : p ≤ en := le_lineEnd t p
  have hce : curLineCol t en = curLineCol t p + (en - p) := by
    rw [hen]
    exact curLineCol_lineEnd t p
  have hcen : curLineCol t en ≤ en := curLineCol_le t en
  have hlsen : lineStart t en = p - curLineCol t p := by
    unfold lineStart
    omega
  rw [hlsen]
  rw [hd]
  have hminc : min (curLineCol t p) (en - (p - curLineCol t p)) = curLineCol t p := by
    apply min_eq_left
    omega
  rw [hminc]
  omega

/-- The depth-zero condition of the spec for the forward scan: position
`k` of the annotated suffix holds the matchable close delimiter and the
nesting depth (starting depth `d`, incremented at each matchable `o`,
decremented at each matchable `c`) returns to zero exactly there. -/
def depthZeroAt (o c : Char) (d : Nat) (l : List (Char × Bool)) (k : Nat) : Prop :=
  l[k]? = some (c, true) ∧
    (l.take k).countP (fun x => x = (o, true)) + d =
      (l.take k).countP (fun x => x = (c, true)) + 1

instance (o c : Char) (d : Nat) (l : List (Char × Bool)) (k : Nat) :
    Decidable (depthZeroAt o c d l k) := by
  unfold depthZeroAt
  infer_instance

/-- Soundness of the forward scan: any returned position is the FIRST
place where the depth (per the spec counting rule) returns to zero at the
matching close delimiter. -/
theorem parseOpenChars_sound (o c : Char) (hoc : o ≠ c) :
    ∀ (l : List (Char × Bool)) (i d j : Nat), 1 ≤ d →
    parseOpenChars o c l i d = some j →
    ∃ k, j = i + k ∧ depthZeroAt o c d l k ∧
      ∀ m < k, ¬ depthZeroAt o c d l m := by
  intro l
  induction l with
  | nil =>
    intro i d j _ h
    simp [parseOpenChars] at h
  | cons hd rest ih =>
    rcases hd with ⟨ch, m⟩
    intro i d j hd1 h
    simp only [parseOpenChars] at h
    by_cases hclose : (m && (decide (ch = c))) = true
    · rcases (by simpa using hclose : m = true ∧ ch = c) with ⟨hm, hch'⟩
      rw [if_pos hclose] at h
      by_cases hd1' : d = 1
      · rw [if_pos hd1'] at h
        refine ⟨0, by simpa using h.symm, ⟨by simp [hch', hm], by simp [hd1']⟩, ?_⟩
        intro k' hk'
        omega
      · rw [if_neg hd1'] at h
        rcases ih (i + 1) (d - 1) j (by omega) h with ⟨k, hk, ⟨hcl, hcount⟩, hmin⟩
        refine ⟨k + 1, by omega, ⟨by simpa using hcl, ?_⟩, ?_⟩
        · rw [List.take_succ_cons, List.countP_cons, List.countP_cons]
          have hno : ¬((ch, m) = (o, true)) := by
            intro hx
            exact hoc (by cases hx; exact hch'.symm ▸ rfl)
          have hyes : ((ch, m) = (c, true)) := by rw [hch', hm]
          simp only [decide_eq_true_iff]
          rw [if_neg hno, if_pos hyes]
          omega
        · intro k' hk'
          cases k' with
          | zero =>
            intro ⟨_, hc0⟩
            simp at hc0
            omega
          | succ k'' =>
            intro ⟨hcl', hcount'⟩
            refine hmin k'' (by omega) ⟨by simpa using hcl', ?_⟩
            rw [List.take_succ_cons, List.countP_cons, List.countP_cons] at hcount'
            have hno : ¬((ch, m) = (o, true)) := by
              intro hx
              exact hoc (by cases hx; exact hch'.symm ▸ rfl)
            have hyes : ((ch, m) = (c, true)) := by rw [hch', hm]
            simp only [decide_eq_true_iff] at hcount'
            rw [if_neg hno, if_pos hyes] at hcount'
            omega
    · rw [if_neg hclose] at h
      have hhdnotc : ¬((ch, m) = (c, true)) := by
        intro hx
        cases hx
        simp at hclose
      by_cases hopen : (m && (decide (ch = o))) = true
      · rcases (by simpa using hopen : m = true ∧ ch = o) with ⟨hm, hch'⟩
        rw [if_pos hopen] at h
        rcases ih (i + 1) (d + 1) j (by omega) h with ⟨k, hk, ⟨hcl, hcount⟩, hmin⟩
        refine ⟨k + 1, by omega, ⟨by simpa using hcl, ?_⟩, ?_⟩
        · rw [List.take_succ_cons, List.countP_cons, List.countP_cons]
          have hyes : ((ch, m) = (o, true)) := by rw [hch', hm]
          simp only [decide_eq_true_iff]
          rw [if_pos hyes, if_neg hhdnotc]
          omega
        · intro k' hk'
          cases k' with
          | zero =>
            intro ⟨hc0, _⟩
            simp at hc0
            exact hhdnotc (by rw [hc0.1, hc0.2])
          | succ k'' =>
            intro ⟨hcl', hcount'⟩
            refine hmin k'' (by omega) ⟨by simpa using hcl', ?_⟩
            rw [List.take_succ_cons, List.countP_cons, List.countP_cons] at hcount'
            have hyes : ((ch, m) = (o, true)) := by rw [hch', hm]
            simp only [decide_eq_true_iff] at hcount'
            rw [if_pos hyes, if_neg hhdnotc] at hcount'
            omega
      · rw [if_neg hopen] at h
        have hhdnoto : ¬((ch, m) = (o, true)) := by
          intro hx
          cases hx
          simp at hopen
        rcases ih (i + 1) d j hd1 h with ⟨k, hk, ⟨hcl, hcount⟩, hmin⟩
        refine ⟨k + 1, by omega, ⟨by simpa using hcl, ?_⟩, ?_⟩
        · rw [List.take_succ_cons, List.countP_cons, List.countP_cons]
          simp only [decide_eq_true_iff]
          rw [if_neg hhdnoto, if_neg hhdnotc]
          omega
        · intro k' hk'
          cases k' with
          | zero =>
            intro ⟨hc0, _⟩
            simp at hc0
            exact hhdnotc (by rw [hc0.1, hc0.2])
          | succ k'' =>
            intro ⟨hcl', hcount'⟩
            refine hmin k'' (by omega) ⟨by simpa using hcl', ?_⟩
            rw [List.take_succ_cons, List.countP_cons, List.countP_cons] at hcount'
            simp only [decide_eq_true_iff] at hcount'
            rw [if_neg hhdnoto, if_neg hhdnotc] at hcount'
            omega

/-- When the character at the cursor is a matchable open delimiter, the
matcher runs exactly the forward depth scan over the annotated suffix. -/
theorem parseMatchingChars_open (bs : List TextBlock) (p : Nat) (ch cl : Char)
    (hch : (blockChars bs false)[p]? = some (ch, true))
    (hcl : matchingCloseChar ch = some cl) :
    parseMatchingChars bs p =
      (parseOpenChars ch cl ((blockChars bs false).drop (p + 1)) (p + 1) 1).map
        (fun j => (p, j)) := by
  have hdelim : isDelimEntry (ch, true) = true := by
    unfold isDelimEntry
    rw [hcl]
    simp
  have hstep1 : parseMatchingChars bs p =
      if isDelimEntry (ch, true) = true then matchAt (blockChars bs false) p
      else matchBefore (blockChars bs false) p := by
    simp only [parseMatchingChars]
    rw [hch]
  rw [hstep1, if_pos hdelim]
  have hstep2 : matchAt (blockChars bs false) p =
      if (true : Bool) = true then
        (match matchingCloseChar ch with
         | some cl =>
           (parseOpenChars ch cl ((blockChars bs false).drop (p + 1)) (p + 1) 1).map
             (fun j => (p, j))
         | none =>
           (match matchingOpenChar ch with
            | some op =>
              (parseCloseChars ch op (((blockChars bs false).take p).reverse) 0 1).map
                (fun k => (p - 1 - k, p))
            | none => none))
      else none := by
    unfold matchAt
    rw [hch]
  rw [hstep2, if_pos rfl, hcl]

/-- When neither the character at the cursor nor the one before it is a
matchable delimiter, the matcher returns the "none" sentinel. -/
theorem parseMatchingChars_none (bs : List TextBlock) (p : Nat)
    (h1 : ∀ x, (blockChars bs false)[p]? = some x → isDelimEntry x = false)
    (h2 : ∀ y, (blockChars bs false)[p - 1]? = some y → isDelimEntry y = false) :
    parseMatchingChars bs p = none := by
  have hbefore : matchBefore (blockChars bs false) p = none := by
    unfold matchBefore
    by_cases hp : p = 0
    · rw [if_pos hp]
    · rw [if_neg hp]
      rcases hy : (blockChars bs false)[p - 1]? with _ | y
      · rfl
      · have hstep : (match some y with
            | some z => if isDelimEntry z = true then
                matchAt (blockChars bs false) (p - 1) else none
            | none => none) =
            if isDelimEntry y = true then matchAt (blockChars bs false) (p - 1)
            else none := rfl
        rw [hstep, if_neg (by rw [h2 y hy]; exact Bool.false_ne_true)]
  rcases hx : (blockChars bs false)[p]? with _ | x
  · have hstep : parseMatchingChars bs p = matchBefore (blockChars bs false) p := by
      simp only [parseMatchingChars]
      rw [hx]
    rw [hstep]
    exact hbefore
  · have hstep : parseMatchingChars bs p =
        if isDelimEntry x = true then matchAt (blockChars bs false) p
        else matchBefore (blockChars bs false) p := by
      simp only [parseMatchingChars]
      rw [hx]
    rw [hstep, if_neg (by rw [h1 x hx]; exact Bool.false_ne_true)]
    exact hbefore

/-- Characters of a `STRING` block are never matchable: the flattening
annotates every one of them `false`. -/
theorem blockChars_string (txt : List Char) (r : List TextBlock) (ic : Bool) :
    blockChars (⟨TextBlockType.STRING, txt⟩ :: r) ic =
      txt.map (fun ch => (ch, false)) ++ blockChars r ic := by
  rfl

/-- Characters of an `UNKNOWN` block inside a COMMENT_BEGIN..COMMENT_END
region are never matchable. -/
theorem blockChars_unknown_inComment (txt : List Char) (r : List TextBlock) :
    blockChars (⟨TextBlockType.UNKNOWN, txt⟩ :: r) true =
      txt.map (fun ch => (ch, false)) ++ blockChars r true := by
  rfl

/-- If no matchable close delimiter occurs anywhere in the suffix, the
forward scan exhausts the buffer and reports the "none" sentinel. -/
theorem parseOpenChars_no_close (o c : Char) :
    ∀ (l : List (Char × Bool)) (i d : Nat),
    (∀ k : Nat, ¬ (l[k]? = some (c, true))) →
    parseOpenChars o c l i d = none := by
  intro l
  induction l with
  | nil => intro i d _; rfl
  | cons hd rest ih =>
    rcases hd with ⟨ch, m⟩
    intro i d h
    simp only [parseOpenChars]
    have hnotc : ¬((m && (decide (ch = c))) = true) := by
      intro hx
      rcases (by simpa using hx : m = true ∧ ch = c) with ⟨hm, hch⟩
      exact h 0 (by simp [hm, hch])
    rw [if_neg hnotc]
    by_cases hopen : (m && (decide (ch = o))) = true
    · rw [if_pos hopen]
      exact ih (i + 1) (d + 1) (fun k => by simpa using h (k + 1))
    · rw [if_neg hopen]
      exact ih (i + 1) d (fun k => by simpa using h (k + 1))

/-- `lineNumberForPos` is the count of line terminators strictly before
the position, plus 1. -/
theorem lineNumberForPos_eq (t : List Char) :
    ∀ p, lineNumberForPos t p = (t.take p).countP (fun c => c = '\n') + 1 := by
  intro p
  induction p with
  | zero => rfl
  | succ p ih =>
    unfold lineNumberForPos
    rw [ih, List.take_succ, List.countP_append]
    rcases hx : t[p]? with _ | ch
    · simp
    · by_cases hnl : ch = '\n'
      · simp [hnl]
      · simp [hnl]

/-- `countLines` is the count of line terminators in the buffer, plus 1. -/
theorem countLines_eq (t : List Char) :
    countLines t = t.countP (fun c => c = '\n') + 1 := by
  induction t with
  | nil => rfl
  | cons c r ih =>
    unfold countLines
    rw [ih, List.countP_cons]
    by_cases h : c = '\n' <;> simp [h] <;> omega

/-- The character walk `substrAux` extracts exactly the slice
`[s, e)` of the buffer. -/
theorem substrAux_eq : ∀ (t : List Char) (s e : Nat),
    substrAux s e t = (t.drop s).take (e - s) := by
  intro t
  induction t with
  | nil => intro s e; simp [substrAux]
  | cons c r ih =>
    intro s e
    cases s with
    | zero =>
      cases e with
      | zero => rfl
      | succ e' =>
        show c :: substrAux 0 e' r = (c :: r).take (e' + 1)
        rw [List.take_succ_cons]
        rw [ih 0 e']
        simp
    | succ s' =>
      cases e with
      | zero =>
        show ([] : List Char) = (r.drop s').take (0 - (s' + 1))
        simp
      | succ e' =>
        show substrAux s' e' r = (r.drop s').take (e' + 1 - (s' + 1))
        rw [ih s' e']
        congr 1
        omega

/-- Tab stops are measured per line: expansion distributes over a line
terminator, with the column starting again at 0 after it. -/
theorem processTabsFrom_perLine (w : Nat) :
    ∀ (a : List Char) (col : Nat) (b : List Char),
    processTabsFrom w col (a ++ '\n' :: b) =
      processTabsFrom w col a ++ '\n' :: processTabsFrom w 0 b := by
  intro a
  induction a with
  | nil =>
    intro col b
    show processTabsFrom w col ('\n' :: b) = '\n' :: processTabsFrom w 0 b
    simp [processTabsFrom]
  | cons c r ih =>
    intro col b
    show processTabsFrom w col (c :: (r ++ '\n' :: b)) = _
    by_cases h1 : c = '\n'
    · simp only [processTabsFrom, h1, if_pos rfl]
      rw [ih 0 b]
      rfl
    · by_cases h2 : c = '\t'
      · simp only [processTabsFrom, if_neg h1, h2, if_pos rfl]
        rw [ih (col + (w - col % w)) b]
        simp [processTabsFrom, h1, h2, List.append_assoc]
      · simp only [processTabsFrom, if_neg h1, if_neg h2]
        rw [ih (col + 1) b]
        rfl

/-- A tab at column `col` expands to `w - col % w` spaces, reaching the
next multiple of the tab width. -/
theorem processTabsFrom_tab (w col : Nat) (r : List Char) :
    processTabsFrom w col ('\t' :: r) =
      spacesN (w - col % w) ++ processTabsFrom w (col + (w - col % w)) r := by
  simp [processTabsFrom]

/-- The column reached after expanding a tab is the next tab stop: a
multiple of the tab width. -/
theorem tabStop_next (w col : Nat) (hw : 0 < w) :
    (col + (w - col % w)) % w = 0 := by
  have h1 := Nat.mod_add_div col w
  have h2 := Nat.mod_lt col hw
  have h3 : col + (w - col % w) = w * (col / w) + w := by omega
  rw [h3, ← Nat.mul_succ]
  exact Nat.mul_mod_right _ _

/-- A recognized open delimiter is never its own close delimiter. -/
theorem matchingCloseChar_ne {ch cl : Char} (h : matchingCloseChar ch = some cl) :
    ch ≠ cl := by
  unfold matchingCloseChar at h
  split_ifs at h with h1 h2 h3 <;> cases h
  · rw [h1]; decide
  · rw [h2]; decide
  · rw [h3]; decide

/-- Concrete color scheme used by the witnesses: `"` quotes strings, `%`
opens a line comment. -/
def demoScheme : ofxEditorColorScheme := ⟨['"'], some '%', none, none⟩

/-- Concrete editor state used by witnesses. -/
def demoEditor : ofxEditor :=
  ⟨⟨4⟩, some demoScheme, "ab\ncd".toList, 1, 1, false, 0, 0⟩

/-- Concrete editor on three lines for the sticky-column witness. -/
def demoEditorSticky : ofxEditor :=
  ⟨⟨4⟩, none, "ab\nc\ndef".toList, 1, 1, false, 0, 0⟩

/-- Concrete empty editor with tab width 4 for the tab-expansion witness. -/
def demoEditorEmpty : ofxEditor := ⟨⟨4⟩, none, [], 0, 0, false, 0, 0⟩

/-- Concrete editor with an active selection `[0, 3)` over `"one two"`. -/
def demoEditorSel : ofxEditor :=
  ⟨⟨4⟩, none, "one two".toList, 3, 3, true, 0, 3⟩

/-- Concrete editor with no selection over `"one two"`. -/
def demoEditorNoSel : ofxEditor :=
  ⟨⟨4⟩, none, "one two".toList, 3, 3, false, 0, 0⟩

/-- C1: tokenization is lossless: the concatenation of the `text` of all
non-tag blocks of the stream produced by parsing any buffer, in stream
order, is exactly that buffer, and the tag blocks (COMMENT_BEGIN,
COMMENT_END) carry no characters. -/
theorem claim_C1 (cs : ofxEditorColorScheme) (t : List Char) :
    concatNonTag (parseTextBlocks cs t) = t ∧
    ∀ b ∈ parseTextBlocks cs t, b.isTag = true → b.text = [] :=
  ⟨concatNonTag_parseTextBlocks cs t,
   fun b hb htag => tags_empty_parseAux cs t.length t b hb htag⟩

/-- Witness for C1 at a concrete buffer containing a comment tag. -/
theorem claim_C1_witness :
    concatNonTag (parseTextBlocks demoScheme "ab %c\n1".toList) = "ab %c\n1".toList ∧
    (TextBlock.mk TextBlockType.COMMENT_BEGIN []).text = [] :=
  ⟨(claim_C1 demoScheme "ab %c\n1".toList).1,
   (claim_C1 demoScheme "ab %c\n1".toList).2 ⟨TextBlockType.COMMENT_BEGIN, []⟩
     (by decide) (by decide)⟩

/-- C2: the position-taking operations (`setCurrentPos`,
`setCurrentLine`, `setCurrentLinePos`, `insertText`, `deleteRange`) clamp
any integer position into `[0, length]` and are total (no error path):
the resulting cursor position always lies in `[0, length]`.  For
`deleteRange`, which is a no-op on an empty or inverted range, the
conjunct assumes the cursor was in bounds to begin with (the no-op
leaves the state untouched). -/
theorem claim_C2 (e : ofxEditor) (p line ch a b : Nat) (s : List Char) :
    (setCurrentPos e p).m_position = min p e.m_text.length ∧
    (setCurrentPos e p).m_position ≤ (setCurrentPos e p).m_text.length ∧
    (setCurrentLine e line).m_position ≤ (setCurrentLine e line).m_text.length ∧
    (setCurrentLinePos e line ch).m_position ≤
      (setCurrentLinePos e line ch).m_text.length ∧
    (insertText e s).m_position ≤ (insertText e s).m_text.length ∧
    (e.m_position ≤ e.m_text.length →
      (deleteRange e a b).m_position ≤ (deleteRange e a b).m_text.length) := by
  refine ⟨rfl, min_le_right _ _, startOfLine_le_length e.m_text line, ?_, ?_, ?_⟩
  · simp only [setCurrentLinePos]
    have h1 := startOfLine_le_length e.m_text line
    have h2 := lineEnd_le_length e.m_text (startOfLine e.m_text line) h1
    have h3 := le_lineEnd e.m_text (startOfLine e.m_text line)
    have h4 : min ch (lineEnd e.m_text (startOfLine e.m_text line) -
        startOfLine e.m_text line) ≤
        lineEnd e.m_text (startOfLine e.m_text line) -
        startOfLine e.m_text line := min_le_right _ _
    omega
  · simp only [insertText, List.length_append, List.length_take, List.length_drop]
    have : min e.m_position e.m_text.length ≤ e.m_text.length := min_le_right _ _
    omega
  · intro hpos
    simp only [deleteRange]
    by_cases hr : min a e.m_text.length < min b e.m_text.length
    · rw [if_pos hr]
      simp only [List.length_append, List.length_take, List.length_drop]
      have h1 : min a e.m_text.length ≤ e.m_text.length := min_le_right _ _
      have h2 : min b e.m_text.length ≤ e.m_text.length := min_le_right _ _
      omega
    · rw [if_neg hr]
      exact hpos

/-- Witness for C2: on `"ab\ncd"` with the cursor at 1, the inverted
range (4, 1) is a no-op and the cursor stays in bounds. -/
theorem claim_C2_witness :
    (deleteRange demoEditor 4 1).m_position ≤
      (deleteRange demoEditor 4 1).m_text.length :=
  (claim_C2 demoEditor 0 0 0 4 1 []).2.2.2.2.2 (by decide)

/-- C3: after every operation (navigation, edit, selection extension),
the state invariant holds: `0 ≤ position ≤ buffer.length` and, if the
selection is active, `selection.start ≤ selection.end ≤ buffer.length`,
regardless of the direction in which the user selected. -/
theorem claim_C3 (op : EditorOp) (e : ofxEditor) (he : EditorInv e) :
    EditorInv (applyOp op e) :=
  editorInv_applyOp op e he

/-- Witness for C3: extending the selection rightward from a concrete
well-formed state keeps the invariant. -/
theorem claim_C3_witness :
    EditorInv demoEditor ∧ EditorInv (applyOp (EditorOp.opMoveRight true) demoEditor) :=
  ⟨by decide, claim_C3 (EditorOp.opMoveRight true) demoEditor (by decide)⟩

/-- C4: when the character at the cursor is a recognized open delimiter,
`findMatch` runs the forward scan through the annotated stream with a
nesting depth counter (incrementing at the same open delimiter,
decrementing at the matching close), any returned match is the close
occurrence where the depth first returns to zero, and for buffer
`"(foo(bar))"` with the cursor at offset 0 the result is the pair
(0, 9). -/
theorem claim_C4 :
    (∀ (bs : List TextBlock) (p : Nat) (ch cl : Char),
      (blockChars bs false)[p]? = some (ch, true) →
      matchingCloseChar ch = some cl →
      parseMatchingChars bs p =
        (parseOpenChars ch cl ((blockChars bs false).drop (p + 1)) (p + 1) 1).map
          (fun j => (p, j))) ∧
    (∀ (ch cl : Char), matchingCloseChar ch = some cl →
      ∀ (l : List (Char × Bool)) (i d j : Nat), 1 ≤ d →
      parseOpenChars ch cl l i d = some j →
      ∃ k, j = i + k ∧ depthZeroAt ch cl d l k ∧
        ∀ m < k, ¬ depthZeroAt ch cl d l m) ∧
    parseMatchingChars (parseTextBlocks demoScheme "(foo(bar))".toList) 0 =
      some (0, 9) :=
  ⟨parseMatchingChars_open,
   fun ch cl hcl => parseOpenChars_sound ch cl (matchingCloseChar_ne hcl),
   by decide⟩

/-- Witness for C4: the matcher on `"(a)"` at offset 0 equals the
forward depth scan, and the scan's answer on that stream is the first
depth-zero close. -/
theorem claim_C4_witness :
    parseMatchingChars (parseTextBlocks demoScheme "(a)".toList) 0 =
      (parseOpenChars '(' ')'
        ((blockChars (parseTextBlocks demoScheme "(a)".toList) false).drop 1) 1 1).map
        (fun j => ((0 : Nat), j)) ∧
    ∃ k, (2 : Nat) = 1 + k ∧
      depthZeroAt '(' ')' 1 [('a', false), (')', true)] k ∧
      ∀ m < k, ¬ depthZeroAt '(' ')' 1 [('a', false), (')', true)] m :=
  ⟨claim_C4.1 (parseTextBlocks demoScheme "(a)".toList) 0 '(' ')'
     (by decide) (by decide),
   claim_C4.2.1 '(' ')' (by decide) [('a', false), (')', true)] 1 1 2
     (by decide) (by decide)⟩

/-- C5: bracket matching ignores delimiters inside STRING blocks and
inside COMMENT_BEGIN..COMMENT_END regions (their characters are annotated
non-matchable), returns the "none" sentinel when the cursor character is
not a recognized matchable delimiter or when the scan exhausts the stream
without the depth reaching zero, and for buffer `"x = \"a(b\""` with the
cursor at offset 8 the result is "none". -/
theorem claim_C5 :
    (∀ (bs : List TextBlock) (p : Nat),
      (∀ x, (blockChars bs false)[p]? = some x → isDelimEntry x = false) →
      (∀ y, (blockChars bs false)[p - 1]? = some y → isDelimEntry y = false) →
      parseMatchingChars bs p = none) ∧
    (∀ (txt : List Char) (r : List TextBlock) (ic : Bool),
      blockChars (⟨TextBlockType.STRING, txt⟩ :: r) ic =
        txt.map (fun ch => (ch, false)) ++ blockChars r ic) ∧
    (∀ (txt : List Char) (r : List TextBlock),
      blockChars (⟨TextBlockType.UNKNOWN, txt⟩ :: r) true =
        txt.map (fun ch => (ch, false)) ++ blockChars r true) ∧
    (∀ (o c : Char) (l : List (Char × Bool)) (i d : Nat),
      (∀ k : Nat, ¬ (l[k]? = some (c, true))) →
      parseOpenChars o c l i d = none) ∧
    parseMatchingChars (parseTextBlocks demoScheme "x = \"a(b\"".toList) 8 = none :=
  ⟨parseMatchingChars_none, blockChars_string, blockChars_unknown_inComment,
   parseOpenChars_no_close, by decide⟩

/-- Witness for C5: in `"x = \"a(b\""` both offset 8 and offset 7 lie in
the STRING block, so the matcher reports the sentinel. -/
theorem claim_C5_witness :
    parseMatchingChars (parseTextBlocks demoScheme "x = \"a(b\"".toList) 8 = none ∧
    parseOpenChars '(' ')' [('a', false)] 0 1 = none :=
  ⟨claim_C5.1 (parseTextBlocks demoScheme "x = \"a(b\"".toList) 8
     (fun x hx => by
       have h8 : (blockChars (parseTextBlocks demoScheme "x = \"a(b\"".toList)
           false)[8]? = some ('"', false) := by decide
       rw [h8] at hx
       cases hx
       decide)
     (fun y hy => by
       have h7 : (blockChars (parseTextBlocks demoScheme "x = \"a(b\"".toList)
           false)[8 - 1]? = some ('b', false) := by decide
       rw [h7] at hy
       cases hy
       decide),
   claim_C5.2.2.2.1 '(' ')' [('a', false)] 0 1
     (fun k => by
       cases k with
       | zero => decide
       | succ n => simp)⟩

/-- C6: vertical cursor motion is sticky-column: `moveUp`/`moveDown`
never change the stored desired column, `moveDown` onto the next line
places the cursor at column `min desiredColumn (target line length)`, and
moving down then back up restores the original position whenever the
desired column equals the current column. -/
theorem claim_C6 (e : ofxEditor) (x y : Bool) :
    (moveDown e x).m_desiredXPos = e.m_desiredXPos ∧
    (moveUp e x).m_desiredXPos = e.m_desiredXPos ∧
    (e.m_position ≤ e.m_text.length →
      lineEnd e.m_text e.m_position < e.m_text.length →
      curLineCol (moveDown e x).m_text (moveDown e x).m_position =
        min e.m_desiredXPos
          (lineEnd e.m_text (lineEnd e.m_text e.m_position + 1) -
            (lineEnd e.m_text e.m_position + 1))) ∧
    (e.m_position ≤ e.m_text.length →
      e.m_desiredXPos = curLineCol e.m_text e.m_position →
      lineEnd e.m_text e.m_position < e.m_text.length →
      (moveUp (moveDown e x) y).m_position = e.m_position) := by
  refine ⟨moveDown_desired e x, moveUp_desired e x, ?_, ?_⟩
  · intro hp hnl
    rw [moveDown_text, moveDown_position e x hnl]
    rw [lineEnd_sub_self e.m_text (lineEnd e.m_text e.m_position + 1)]
    exact curLineCol_moveDown_target e.m_text e.m_position _ hp hnl (min_le_right _ _)
  · intro hp hd hnl
    exact moveUp_moveDown_roundTrip e x y hp hd hnl

/-- Witness for C6: on `"ab\nc\ndef"` with the cursor at offset 1
(column 1), moving down onto the shorter line `"c"` and back up restores
offset 1, and the desired column survives the trip. -/
theorem claim_C6_witness :
    (moveUp (moveDown demoEditorSticky false) false).m_position =
      demoEditorSticky.m_position ∧
    (moveDown demoEditorSticky false).m_desiredXPos =
      demoEditorSticky.m_desiredXPos :=
  ⟨(claim_C6 demoEditorSticky false false).2.2.2 (by decide) (by decide) (by decide),
   (claim_C6 demoEditorSticky false false).1⟩

/-- C7: re-tokenization is a deterministic function of buffer content
(and lexical descriptor) alone — cursor, selection and all other state
are irrelevant — and the scan is total: the non-tag blocks reproduce the
buffer, so every character is assigned to exactly one non-tag block. -/
theorem claim_C7 (e1 e2 : ofxEditor)
    (ht : e1.m_text = e2.m_text) (hs : e1.m_colorScheme = e2.m_colorScheme) :
    editorTextBlocks e1 = editorTextBlocks e2 ∧
    concatNonTag (editorTextBlocks e1) = e1.m_text ∧
    (concatNonTag (editorTextBlocks e1)).length = e1.m_text.length := by
  refine ⟨?_, ?_, ?_⟩
  · unfold editorTextBlocks schemeOf
    rw [ht, hs]
  · exact concatNonTag_parseTextBlocks _ _
  · exact congrArg List.length (concatNonTag_parseTextBlocks _ _)

/-- Witness for C7: two states sharing buffer and scheme but with
different cursors and selections tokenize identically. -/
theorem claim_C7_witness :
    editorTextBlocks demoEditorSel = editorTextBlocks demoEditorNoSel ∧
    concatNonTag (editorTextBlocks demoEditorSel) = demoEditorSel.m_text ∧
    (concatNonTag (editorTextBlocks demoEditorSel)).length =
      demoEditorSel.m_text.length :=
  claim_C7 demoEditorSel demoEditorNoSel rfl rfl

/-- C8: inserted tabs are expanded to the configured tab width measured
from the start of their own line: expansion distributes over line
terminators (per-line tab stops), a tab at column `col` becomes
`w - col % w` spaces reaching the next multiple of the width, and
`insertText "\t"` with width 4 on an empty buffer grows it by 4
characters, not 1. -/
theorem claim_C8 :
    (∀ (w col : Nat) (a b : List Char),
      processTabsFrom w col (a ++ '\n' :: b) =
        processTabsFrom w col a ++ '\n' :: processTabsFrom w 0 b) ∧
    (∀ (w col : Nat) (r : List Char),
      processTabsFrom w col ('\t' :: r) =
        spacesN (w - col % w) ++ processTabsFrom w (col + (w - col % w)) r) ∧
    (∀ w col : Nat, 0 < w → (col + (w - col % w)) % w = 0) ∧
    (insertText demoEditorEmpty "\t".toList).m_text.length = 4 ∧
    (insertText demoEditorEmpty "\t".toList).m_text.length ≠ 1 :=
  ⟨fun w col a b => processTabsFrom_perLine w a col b,
   processTabsFrom_tab, tabStop_next, by decide, by decide⟩

/-- Witness for C8: at width 4, column 0, the next tab stop is a
multiple of 4. -/
theorem claim_C8_witness : (0 + (4 - 0 % 4)) % 4 = 0 :=
  claim_C8.2.2.1 4 0 (by decide)

/-- C9: for every valid position, `lineNumberForPos` is the number of
line terminators strictly before it plus 1 (1-based), and the line count
is the number of line terminators in the buffer plus 1. -/
theorem claim_C9 (e : ofxEditor) (p : Nat) (hp : p ≤ e.m_text.length) :
    lineNumberForPos e.m_text p =
      (e.m_text.take p).countP (fun c => c = '\n') + 1 ∧
    getNumLines e = e.m_text.countP (fun c => c = '\n') + 1 :=
  ⟨lineNumberForPos_eq e.m_text p, countLines_eq e.m_text⟩

/-- Witness for C9 at `"ab\ncd"`, position 4. -/
theorem claim_C9_witness :
    lineNumberForPos demoEditor.m_text 4 =
      (demoEditor.m_text.take 4).countP (fun c => c = '\n') + 1 ∧
    getNumLines demoEditor =
      demoEditor.m_text.countP (fun c => c = '\n') + 1 :=
  claim_C9 demoEditor 4 (by decide)

/-- C10: with an active selection `getText` returns exactly the selected
slice `[highlightStart, highlightEnd)` of the buffer; with no active
selection it returns the whole buffer. -/
theorem claim_C10 (e : ofxEditor) :
    (e.m_selection = true →
      getText e =
        (e.m_text.drop e.m_highlightStart).take
          (e.m_highlightEnd - e.m_highlightStart)) ∧
    (e.m_selection = false → getText e = e.m_text) := by
  constructor
  · intro h
    unfold getText
    rw [if_pos h]
    exact substrAux_eq e.m_text e.m_highlightStart e.m_highlightEnd
  · intro h
    unfold getText
    rw [if_neg (by rw [h]; exact Bool.false_ne_true)]

/-- Witness for C10: selecting `[0, 3)` of `"one two"` yields `"one"`;
with no selection the whole buffer comes back. -/
theorem claim_C10_witness :
    getText demoEditorSel = "one".toList ∧
    getText demoEditorNoSel = "one two".toList :=
  ⟨((claim_C10 demoEditorSel).1 rfl).trans (by decide),
   (claim_C10 demoEditorNoSel).2 rfl⟩

end Ofx
